import Mathlib

/-!
Verification of the Noctum mutation-testing engine against its
natural-language specification.

Rust strings are modelled as `List Char`; byte positions (Rust `str::len`,
byte slicing) are recovered through `Char.utf8Size`, so that the partiality
of Rust byte slicing (a panic when an index falls inside a multi-byte
character) is visible as an `Option` result.  Fallible Rust functions
(`anyhow::Result`) are modelled with `Option`; a Rust panic is modelled as
`none` at the point where it would unwind.  The file system seen by the
mutation executor is a single file content threaded explicitly; LLM calls
and external commands are oracles passed in as explicit arguments.
-/

namespace Noctum

/-- Number of bytes of the UTF-8 encoding of a string (Rust `str::len`). -/
def utf8Len (s : List Char) : Nat := (s.map Char.utf8Size).sum

/-- Rust byte slice `&s[..n]`: returns the characters occupying the first
`n` bytes, or `none` (a panic) when `n` is not a character boundary or
exceeds the length. -/
def takeBytes : List Char → Nat → Option (List Char)
  | _, 0 => some []
  | [], _ + 1 => none
  | c :: cs, n + 1 =>
    if c.utf8Size ≤ n + 1 then
      match takeBytes cs (n + 1 - c.utf8Size) with
      | none => none
      | some t => some (c :: t)
    else none

/-- Rust byte slice `&s[i..]`: drops the first `i` bytes, or `none` (a
panic) when `i` is not a character boundary or exceeds the length. -/
def dropBytes : List Char → Nat → Option (List Char)
  | l, 0 => some l
  | [], _ + 1 => none
  | c :: cs, n + 1 =>
    if c.utf8Size ≤ n + 1 then dropBytes cs (n + 1 - c.utf8Size)
    else none

/-- Byte offsets of the characters of a string starting at offset `base`
(Rust `str::char_indices`, keeping only the indices). -/
def charIndices : List Char → Nat → List Nat
  | [], _ => []
  | c :: cs, base => base :: charIndices cs (base + c.utf8Size)

/-- Marker appended by `truncate_output` (source `mutation/executor.rs`). -/
def headMarker : List Char := "...(truncated)".toList

/-- Marker prepended by `truncate_output_tail`. -/
def tailMarker : List Char := "(truncated)...".toList

/-- `truncate_output` from `mutation/executor.rs`: keeps the first
`max_bytes` bytes and appends a marker.  The byte slice
`&output[..max_bytes]` panics (`none`) when `max_bytes` falls inside a
multi-byte character. -/
def truncate_output (output : List Char) (max_bytes : Nat) : Option (List Char) :=
  if utf8Len output ≤ max_bytes then some output
  else (takeBytes output max_bytes).map (fun t => t ++ headMarker)

/-- `truncate_error` from `mutation/analyzer.rs`: keeps the first `max_len`
bytes (no marker).  The byte slice `&error[..max_len]` panics (`none`) when
`max_len` falls inside a multi-byte character. -/
def truncate_error (error : List Char) (max_len : Nat) : Option (List Char) :=
  if utf8Len error ≤ max_len then some error
  else takeBytes error max_len

/-- `truncate_output_tail` from `mutation/executor.rs`: keeps the last
`max_bytes` bytes, rounding the start forward to a character boundary via
`char_indices`, and prepends a marker.  When no character starts at or
after the raw start index, the code falls back to the raw index and the
slice `&output[start..]` panics (`none`) if that index is not a boundary. -/
def truncate_output_tail (output : List Char) (max_bytes : Nat) : Option (List Char) :=
  if utf8Len output ≤ max_bytes then some output
  else
    let start := utf8Len output - max_bytes
    let start1 := ((charIndices output 0).find? (fun i => decide (start ≤ i))).getD start
    (dropBytes output start1).map (fun t => tailMarker ++ t)

/-- The compile-error excerpt embedded in the LLM fix prompt:
`fix_mutation_prompt` in `mutation/analyzer.rs` interpolates
`truncate_error(compile_error, 2000)`. -/
def fixPromptErrorExcerpt (compile_error : List Char) : Option (List Char) :=
  truncate_error compile_error 2000

/-- Rust `str::split_inclusive` specialised to a separator character:
splits after each occurrence of `sep`, keeping the separator, with no
empty trailing piece. -/
def splitInclusive (sep : Char) : List Char → List (List Char)
  | [] => []
  | c :: cs =>
    if c = sep then [c] :: splitInclusive sep cs
    else
      match splitInclusive sep cs with
      | [] => [[c]]
      | g :: gs => (c :: g) :: gs

/-- The per-line map of Rust `str::lines`: strip one trailing newline, and
if one was stripped, one trailing carriage return. -/
def linesMap (l : List Char) : List Char :=
  match l.getLast? with
  | some c =>
    if c = '\n' then
      match l.dropLast.getLast? with
      | some d => if d = '\r' then l.dropLast.dropLast else l.dropLast
      | none => l.dropLast
    else l
  | none => l

/-- Rust `str::lines` (`content.lines().collect()`): split inclusively on
the newline character, then strip the line terminators. -/
def rustLines (content : List Char) : List (List Char) :=
  (splitInclusive '\n' content).map linesMap

/-- The line separator chosen by `apply_single_replacement` when
reassembling the file: CRLF when the content contains a CRLF, LF
otherwise. -/
def lineSep (content : List Char) : List Char :=
  if ['\r', '\n'] <:+: content then ['\r', '\n'] else ['\n']

/-- Rust `str::replacen(find, replace, 1)`: replace the first occurrence
of `find` (leftmost-first, the empty needle matching at the start). -/
def replaceFirst (find repl : List Char) : List Char → List Char
  | [] => if find.isPrefixOf ([] : List Char) then repl else []
  | c :: cs =>
    if find.isPrefixOf (c :: cs) then repl ++ (c :: cs).drop find.length
    else c :: replaceFirst find repl cs

/-- A single text replacement of a mutation (`mutation/mod.rs`,
`struct Replacement`). -/
structure Replacement where
  line_number : Nat
  find : List Char
  replace : List Char
  deriving DecidableEq

/-- A generated mutation (`mutation/mod.rs`, `struct GeneratedMutation`). -/
structure GeneratedMutation where
  file_path : List Char
  replacements : List Replacement
  reasoning : List Char
  description : List Char
  deriving DecidableEq

/-- `LINE_TOLERANCE` from `mutation/executor.rs` and
`mutation/analyzer.rs`. -/
def LINE_TOLERANCE : Nat := 3

/-- The window scan of `apply_single_replacement`: Rust
`for line_num in start..=end { if lines[line_num-1].contains(find) }`,
modelled with an explicit iteration count.  Returns the first line number
in `[start, start+count)` whose line contains `find`. -/
def findInWindow (lines : List (List Char)) (find : List Char) : Nat → Nat → Option Nat
  | _, 0 => none
  | s, n + 1 =>
    if find <:+: lines.getD (s - 1) [] then some s
    else findInWindow lines find (s + 1) n

/-- Helper for the whole-file fallback scan, carrying the one-based line
number of the head of the remaining list. -/
def positionContainingFrom (find : List Char) : List (List Char) → Nat → Option Nat
  | [], _ => none
  | l :: ls, n => if find <:+: l then some n else positionContainingFrom find ls (n + 1)

/-- The whole-file fallback of `apply_single_replacement`: Rust
`lines.iter().position(|l| l.contains(find)).map(|idx| idx + 1)`. -/
def positionContaining (find : List Char) (lines : List (List Char)) : Option Nat :=
  positionContainingFrom find lines 1

/-- The line rebuild loop of `apply_single_replacement`: every line is
kept except the target line, whose first occurrence of `find` is replaced
once.  `idx` is the zero-based index of the head of the remaining list. -/
def buildNewLines (find repl : List Char) (target : Nat) : List (List Char) → Nat → List (List Char)
  | [], _ => []
  | l :: ls, idx =>
    (if idx + 1 = target then replaceFirst find repl l else l) ::
      buildNewLines find repl target ls (idx + 1)

/-- `apply_single_replacement` from `mutation/executor.rs`. -/
def apply_single_replacement (content : List Char) (r : Replacement) : Option (List Char) :=
  let lines := rustLines content
  let line_count := lines.length
  if r.line_number = 0 ∨ line_count + LINE_TOLERANCE < r.line_number then none
  else
    let start_line := Nat.max (r.line_number - LINE_TOLERANCE) 1
    let end_line := Nat.min (r.line_number + LINE_TOLERANCE) line_count
    let windowHit := findInWindow lines r.find start_line (end_line + 1 - start_line)
    let target? :=
      match windowHit with
      | some t => some t
      | none => positionContaining r.find lines
    match target? with
    | none => none
    | some target =>
      some (List.intercalate (lineSep content)
        (buildNewLines r.find r.replace target lines 0))

/-- The stable descending sort of `apply_replacements`
(`sorted_replacements.sort_by(|a, b| b.line_number.cmp(&a.line_number))`;
Rust `sort_by` is stable, and `List.insertionSort` with this total
preorder computes exactly the stable descending-by-line ordering). -/
def sortByLineDesc (rs : List Replacement) : List Replacement :=
  List.insertionSort (fun a b => b.line_number ≤ a.line_number) rs

/-- `apply_replacements` from `mutation/executor.rs`: fails on an empty
list, otherwise applies the replacements in stable descending line order,
propagating the first failure. -/
def apply_replacements (content : List Char) (replacements : List Replacement) :
    Option (List Char) :=
  if replacements.isEmpty then none
  else (sortByLineDesc replacements).foldlM apply_single_replacement content

/-- A replacement as returned by the LLM (`mutation/analyzer.rs`,
`struct RawReplacement`), before validation. -/
structure RawReplacement where
  line_number : Nat
  find : List Char
  replace : List Char
  deriving DecidableEq

/-- A mutation as returned by the LLM (`mutation/analyzer.rs`,
`struct RawMutation`), before validation. -/
structure RawMutation where
  replacements : List RawReplacement
  reasoning : List Char
  description : List Char
  deriving DecidableEq

/-- Validation of one raw replacement inside
`analyze_and_generate_mutations`: range-check the line number, reject an
empty `find` and a no-op replacement, then locate `find` in the ±3-line
window around the suggested line, falling back to a whole-file scan, and
record the located line as the validated line number. -/
def validateReplacement (lines : List (List Char)) (raw : RawReplacement) :
    Option Replacement :=
  let line_count := lines.length
  if raw.line_number = 0 ∨ line_count + LINE_TOLERANCE < raw.line_number then none
  else if raw.find = [] then none
  else if raw.find = raw.replace then none
  else
    let start_line := Nat.max (raw.line_number - LINE_TOLERANCE) 1
    let end_line := Nat.min (raw.line_number + LINE_TOLERANCE) line_count
    let found := findInWindow lines raw.find start_line (end_line + 1 - start_line)
    let actual :=
      match found with
      | some t => some t
      | none => positionContaining raw.find lines
    match actual with
    | none => none
    | some t => some ⟨t, raw.find, raw.replace⟩

/-- The replacement loop with early `return None` of the validation
closure, modelled as an option-valued map (a single failing replacement
rejects the whole mutation). -/
def mapMOpt (f : α → Option β) : List α → Option (List β)
  | [] => some []
  | a :: as =>
    match f a, mapMOpt f as with
    | some b, some bs => some (b :: bs)
    | _, _ => none

/-- The per-mutation validation closure of
`analyze_and_generate_mutations`: reject mutations without replacements,
validate every replacement. -/
def validateMutation (file_path : List Char) (lines : List (List Char))
    (raw : RawMutation) : Option GeneratedMutation :=
  if raw.replacements.isEmpty then none
  else
    match mapMOpt (validateReplacement lines) raw.replacements with
    | none => none
    | some reps => some ⟨file_path, reps, raw.reasoning, raw.description⟩

/-- The pure part of `analyze_and_generate_mutations`
(`mutation/analyzer.rs`): the structured LLM response is the `parsed`
argument; the code takes at most `2 * max_mutations` raw mutations,
validates them, and keeps at most `max_mutations` of the survivors. -/
def analyze_and_generate_mutations (file_path code : List Char)
    (parsed : List RawMutation) (max_mutations : Nat) : List GeneratedMutation :=
  let lines := rustLines code
  (((parsed.take (max_mutations * 2)).filterMap (validateMutation file_path lines)).take
    max_mutations)

/-- `ScheduleConfig` from `config/mod.rs` (hours are `u8` in the source,
modelled as `Nat`). -/
structure ScheduleConfig where
  start_hour : Nat
  end_hour : Nat
  deriving DecidableEq

/-- `ScheduleConfig::is_hour_in_window` from `config/mod.rs`. -/
def ScheduleConfig.is_hour_in_window (c : ScheduleConfig) (hour : Nat) : Bool :=
  if c.start_hour ≤ c.end_hour then
    decide (c.start_hour ≤ hour) && decide (hour < c.end_hour)
  else
    decide (c.start_hour ≤ hour) || decide (hour < c.end_hour)

/-- `MutationSummary` from `db/models.rs` (`usize` counters modelled as
`Nat`). -/
structure MutationSummary where
  total : Nat
  killed : Nat
  survived : Nat
  timeout : Nat
  compile_error : Nat
  deriving DecidableEq

/-- `MutationSummary::default()`. -/
def MutationSummary.default : MutationSummary := ⟨0, 0, 0, 0, 0⟩

/-- `MutationSummary::mutation_score` from `db/models.rs`.  The source
computes in `f64`; counts are exact integers, so the score is modelled as
the exact rational the division rounds. -/
def MutationSummary.mutation_score (s : MutationSummary) : ℚ :=
  let testable := s.killed + s.survived
  if testable = 0 then 0 else (s.killed : ℚ) / (testable : ℚ)

/-- A stored `mutation_results` row as read back by
`get_mutation_results` (`db/models.rs`, `struct MutationResult`), keeping
the fields the summary inspects. -/
structure MutationResultRow where
  test_outcome : List Char
  deriving DecidableEq

/-- The counting step of `get_mutation_summary` (`db/mod.rs`): one row
increments `total` and the counter matching its `test_outcome` string;
unrecognised strings increment only `total`. -/
def summaryStep (s : MutationSummary) (r : MutationResultRow) : MutationSummary :=
  let s := { s with total := s.total + 1 }
  if r.test_outcome = "killed".toList then { s with killed := s.killed + 1 }
  else if r.test_outcome = "survived".toList then { s with survived := s.survived + 1 }
  else if r.test_outcome = "timeout".toList then { s with timeout := s.timeout + 1 }
  else if r.test_outcome = "compile_error".toList then
    { s with compile_error := s.compile_error + 1 }
  else s

/-- `get_mutation_summary` (`db/mod.rs`) over the rows fetched for a
repository. -/
def get_mutation_summary (rows : List MutationResultRow) : MutationSummary :=
  rows.foldl summaryStep MutationSummary.default

/-- `TestOutcome` from `mutation/mod.rs`. -/
inductive TestOutcome where
  | killed
  | survived
  | timeout
  | compileError
  deriving DecidableEq

/-- The `Display` implementation of `TestOutcome`
(`result.outcome.to_string()` in the daemon). -/
def TestOutcome.toDisplay : TestOutcome → List Char
  | .killed => "killed".toList
  | .survived => "survived".toList
  | .timeout => "timeout".toList
  | .compileError => "compile_error".toList

/-- `MutationTestResult` from `mutation/mod.rs` (the wall-clock
`execution_time_ms` field is not modelled). -/
structure MutationTestResultM where
  mutation : GeneratedMutation
  outcome : TestOutcome
  killing_test : Option (List Char)
  test_output : Option (List Char)
  deriving DecidableEq

/-- The internal `TestResult` enum of `mutation/executor.rs`. -/
inductive TestResultR where
  | passed
  | failed (test_name output : List Char)
  | compileError (output : List Char)
  | timeout
  deriving DecidableEq

/-- Outcome of spawning and awaiting the test command, an oracle for the
external process (`run_tests_with_command`, before classification). -/
inductive CmdResult where
  | spawnErrorMsg (msg : List Char)
  | execErrorMsg (msg : List Char)
  | timedOut
  | completed (exit_code : Option Int) (output : List Char)
  deriving DecidableEq

/-- The structured LLM answer of `analyze_test_output`. -/
structure AnalysisOut where
  outcome : List Char
  failing_test : Option (List Char)
  deriving DecidableEq

/-- Oracles consumed by `run_tests_with_command`: the process outcome and
the LLM analysis (`none` models the LLM call returning an error). -/
structure TestEnv where
  cmd : CmdResult
  analysis : Option AnalysisOut
  deriving DecidableEq

/-- The exit-code fallback of `run_tests_with_command`, used when the LLM
analysis fails or returns an unexpected outcome string. -/
def fallbackByExit (exit_code : Option Int) (truncated : List Char) : TestResultR :=
  match exit_code with
  | some 0 => .passed
  | some _ => .failed "unknown".toList truncated
  | none => .timeout

/-- `run_tests_with_command` from `mutation/executor.rs`.  A `none` result
models a Rust panic: for a non-zero exit code the captured output is
byte-truncated with `truncate_output` before the LLM analysis, and that
slice panics when `max_test_output_bytes` falls inside a multi-byte
character. -/
def run_tests_with_command (env : TestEnv) (max_test_output_bytes : Nat) :
    Option TestResultR :=
  match env.cmd with
  | .spawnErrorMsg msg => some (.compileError msg)
  | .execErrorMsg msg => some (.compileError msg)
  | .timedOut => some .timeout
  | .completed exit_code output =>
    if exit_code = some 0 then some .passed
    else
      match truncate_output output max_test_output_bytes with
      | none => none
      | some truncated =>
        match env.analysis with
        | some a =>
          if a.outcome = "passed".toList then some .passed
          else if a.outcome = "failed".toList then
            some (.failed (a.failing_test.getD "unknown".toList) truncated)
          else if a.outcome = "compile_error".toList then some (.compileError truncated)
          else if a.outcome = "timeout".toList then some .timeout
          else some (fallbackByExit exit_code truncated)
        | none => some (fallbackByExit exit_code truncated)

/-- Outcome of `fix_mutation_with_error`, an oracle for the LLM round
trip.  `fixPanicked` models a panic inside the call (its prompt assembly
byte-slices the compile error). -/
inductive FixOutcome where
  | fixPanicked
  | fixErrored
  | fixOk (m : GeneratedMutation)
  deriving DecidableEq

/-- Oracles consumed by one invocation of `execute_mutation_test`: the
build command result per attempt, the test command environment, and the
LLM fix result per attempt. -/
structure ExecEnv where
  build : Nat → Option (List Char)
  testEnv : TestEnv
  fix : Nat → FixOutcome

/-- `MAX_COMPILE_RETRIES` from `mutation/executor.rs`. -/
def MAX_COMPILE_RETRIES : Nat := 3

/-- Abstract stand-in for the message
`format!("Failed to apply mutation: {}", e)`. -/
def applyFailMessage : List Char := "Failed to apply mutation".toList

/-- The code after the retry loop of `execute_mutation_test`: build a
`CompileError` result, truncating the last compile error for storage
(`last_compile_error.map(|e| truncate_output(e, max))`, which can
panic). -/
def finalCompileError (max_test_output_bytes : Nat) (m : GeneratedMutation)
    (lastErr : Option (List Char)) (fs : List Char) :
    Option MutationTestResultM × List Char :=
  match lastErr with
  | none => (some ⟨m, .compileError, none, none⟩, fs)
  | some e =>
    match truncate_output e max_test_output_bytes with
    | none => (none, fs)
    | some t => (some ⟨m, .compileError, none, some t⟩, fs)

/-- The classification of a successful-build attempt in
`execute_mutation_test`: the file has already been reverted; the test
result is mapped to an outcome, truncating captured output (the byte
slice can panic, modelled as `none`). -/
def classifyAfterBuild (max_test_output_bytes : Nat) (m : GeneratedMutation)
    (res : TestResultR) (fs : List Char) : Option MutationTestResultM × List Char :=
  match res with
  | .passed => (some ⟨m, .survived, none, none⟩, fs)
  | .failed test_name output =>
    match truncate_output output max_test_output_bytes with
    | none => (none, fs)
    | some t => (some ⟨m, .killed, some test_name, some t⟩, fs)
  | .compileError output =>
    match truncate_output output max_test_output_bytes with
    | none => (none, fs)
    | some t => (some ⟨m, .compileError, none, some t⟩, fs)
  | .timeout => (some ⟨m, .timeout, none, none⟩, fs)

/-- The retry loop of `execute_mutation_test`.  `fuel` is the number of
remaining attempts (`MAX_COMPILE_RETRIES` at entry), `attempt` the
one-based attempt counter, `fs` the current content of the mutated file on
disk.  File writes are modelled as always succeeding; a `none` first
component models a Rust panic unwinding the procedure, with the second
component the file content left on disk. -/
def execLoop (env : ExecEnv) (max_test_output_bytes : Nat)
    (original_content : List Char) :
    Nat → Nat → GeneratedMutation → Option (List Char) → List Char →
    Option MutationTestResultM × List Char
  | 0, _, m, lastErr, fs => finalCompileError max_test_output_bytes m lastErr fs
  | fuel + 1, attempt, m, _lastErr, fs =>
    match apply_replacements original_content m.replacements with
    | none => (some ⟨m, .compileError, none, some applyFailMessage⟩, fs)
    | some mutated =>
      -- tokio::fs::write(file_path, mutated)
      let fs1 := mutated
      match env.build attempt with
      | none =>
        -- build succeeded; run the tests, then revert
        match run_tests_with_command env.testEnv max_test_output_bytes with
        | none => (none, fs1)
        | some res => classifyAfterBuild max_test_output_bytes m res original_content
      | some compile_error =>
        -- build failed; revert, then maybe ask the LLM for a fix
        let fs2 := original_content
        if 0 < fuel then
          match truncate_output_tail compile_error 500 with
          | none => (none, fs2)
          | some _preview =>
            match env.fix attempt with
            | .fixPanicked => (none, fs2)
            | .fixErrored => finalCompileError max_test_output_bytes m (some compile_error) fs2
            | .fixOk fixed =>
              execLoop env max_test_output_bytes original_content fuel (attempt + 1) fixed
                (some compile_error) fs2
        else finalCompileError max_test_output_bytes m (some compile_error) fs2

/-- `execute_mutation_test` from `mutation/executor.rs`, over an explicit
single-file file system whose content on entry is `fs0`
(`original_content` is read from disk at the start). -/
def execute_mutation_test (env : ExecEnv) (max_test_output_bytes : Nat)
    (m : GeneratedMutation) (fs0 : List Char) : Option MutationTestResultM × List Char :=
  execLoop env max_test_output_bytes fs0 MAX_COMPILE_RETRIES 1 m none fs0

/-- A `mutation_results` row as written by the daemon
(`run_mutation_testing` in `daemon/mod.rs` calling
`save_mutation_result`), keeping the outcome-relevant fields. -/
structure SavedMutationRow where
  test_outcome : List Char
  killing_test : Option (List Char)
  test_output : Option (List Char)
  deriving DecidableEq

/-- The per-result persistence decision of `run_mutation_testing`
(`daemon/mod.rs`): results with outcome `CompileError` are skipped; every
other result is saved with `test_outcome` set to the `Display` string of
its outcome. -/
def persistedMutationRow (r : MutationTestResultM) : Option SavedMutationRow :=
  if r.outcome = .compileError then none
  else some ⟨r.outcome.toDisplay, r.killing_test, r.test_output⟩

/-- The rows written to the store by one mutation-testing cycle over the
per-mutation results that `execute_mutation_test` returned. -/
def run_mutation_testing_persisted (results : List MutationTestResultM) :
    List SavedMutationRow :=
  results.filterMap persistedMutationRow

/-! ### Schedule window (C2) -/

/-- C2: for hours in `0..23`, `is_hour_in_window` returns true exactly when
`start_hour ≤ hour < end_hour` if `start_hour ≤ end_hour`, and otherwise
exactly when `hour ≥ start_hour` or `hour < end_hour`. -/
theorem is_hour_in_window_spec (c : ScheduleConfig) (hour : Nat)
    (_h1 : c.start_hour ≤ 23) (_h2 : c.end_hour ≤ 23) (_h3 : hour ≤ 23) :
    (c.start_hour ≤ c.end_hour →
      (c.is_hour_in_window hour = true ↔ c.start_hour ≤ hour ∧ hour < c.end_hour)) ∧
    (¬ c.start_hour ≤ c.end_hour →
      (c.is_hour_in_window hour = true ↔ c.start_hour ≤ hour ∨ hour < c.end_hour)) := by
  unfold ScheduleConfig.is_hour_in_window
  constructor <;> intro h <;> simp [h]

/-- Witness for C2 at the default overnight window 22..6 and hour 23. -/
theorem is_hour_in_window_witness :
    ScheduleConfig.is_hour_in_window ⟨22, 6⟩ 23 = true :=
  ((is_hour_in_window_spec ⟨22, 6⟩ 23 (by decide) (by decide) (by decide)).2
    (by decide)).mpr (Or.inl (by decide))

/-! ### Mutation score (C9) -/

/-- C9: `mutation_score` is `killed / (killed + survived)`, is zero when
that denominator is zero, and ignores the timeout and compile-error
counters. -/
theorem mutation_score_spec (s : MutationSummary) :
    s.mutation_score = (s.killed : ℚ) / ((s.killed : ℚ) + (s.survived : ℚ)) ∧
    (s.killed + s.survived = 0 → s.mutation_score = 0) ∧
    (∀ t c, (MutationSummary.mk s.total s.killed s.survived t c).mutation_score =
      s.mutation_score) := by
  refine ⟨?_, fun h => ?_, fun t c => rfl⟩
  · unfold MutationSummary.mutation_score
    by_cases h : s.killed + s.survived = 0
    · have hk : s.killed = 0 := Nat.eq_zero_of_add_eq_zero_right h
      simp [h, hk]
    · simp only [h, if_false]
      push_cast
      rfl
  · unfold MutationSummary.mutation_score
    simp [h]

/-- Witness for C9 at the empty summary. -/
theorem mutation_score_witness : MutationSummary.mutation_score ⟨0, 0, 0, 0, 0⟩ = 0 :=
  (mutation_score_spec ⟨0, 0, 0, 0, 0⟩).2.1 (by decide)

/-! ### Persisted outcomes (C7) -/

/-- C7: every row the mutation-testing cycle writes to the store has
`test_outcome` equal to `killed`, `survived` or `timeout`; compile-error
results are never persisted. -/
theorem persisted_outcome_spec (results : List MutationTestResultM)
    (row : SavedMutationRow) (h : row ∈ run_mutation_testing_persisted results) :
    row.test_outcome = "killed".toList ∨ row.test_outcome = "survived".toList ∨
      row.test_outcome = "timeout".toList := by
  unfold run_mutation_testing_persisted at h
  obtain ⟨r, _, hrow⟩ := List.mem_filterMap.mp h
  unfold persistedMutationRow at hrow
  by_cases hc : r.outcome = .compileError
  · simp [hc] at hrow
  · rw [if_neg hc] at hrow
    cases hrow
    cases ho : r.outcome
    · exact Or.inl (by simp [TestOutcome.toDisplay, ho])
    · exact Or.inr (Or.inl (by simp [TestOutcome.toDisplay, ho]))
    · exact Or.inr (Or.inr (by simp [TestOutcome.toDisplay, ho]))
    · exact absurd ho hc

/-- Witness for C7 on a single killed result. -/
theorem persisted_outcome_witness :
    SavedMutationRow.test_outcome ⟨"killed".toList, none, none⟩ = "killed".toList ∨
      SavedMutationRow.test_outcome ⟨"killed".toList, none, none⟩ = "survived".toList ∨
      SavedMutationRow.test_outcome ⟨"killed".toList, none, none⟩ = "timeout".toList :=
  persisted_outcome_spec [⟨⟨[], [], [], []⟩, .killed, none, none⟩]
    ⟨"killed".toList, none, none⟩ (by decide)

/-! ### Summary totality (C8) -/

/-- Invariant preservation for the counting fold of
`get_mutation_summary`: if the accumulator satisfies the totality
equation and every row has a recognised outcome string, so does the
result. -/
theorem summary_foldl_inv (rows : List MutationResultRow) :
    ∀ acc : MutationSummary,
      acc.killed + acc.survived + acc.timeout + acc.compile_error = acc.total →
      (∀ r ∈ rows,
        r.test_outcome = "killed".toList ∨ r.test_outcome = "survived".toList ∨
          r.test_outcome = "timeout".toList ∨ r.test_outcome = "compile_error".toList) →
      (rows.foldl summaryStep acc).killed + (rows.foldl summaryStep acc).survived +
          (rows.foldl summaryStep acc).timeout +
          (rows.foldl summaryStep acc).compile_error =
        (rows.foldl summaryStep acc).total := by
  induction rows with
  | nil => intro acc hacc _; simpa using hacc
  | cons r rows ih =>
    intro acc hacc h
    rw [List.foldl_cons]
    refine ih (summaryStep acc r) ?_ (fun x hx => h x (List.mem_cons_of_mem r hx))
    rcases h r (List.mem_cons_self r rows) with h1 | h2 | h3 | h4
    · simp [summaryStep, h1]; omega
    · have hne : ¬ ("survived".toList = "killed".toList) := by decide
      simp [summaryStep, h2, hne]; omega
    · have hne1 : ¬ ("timeout".toList = "killed".toList) := by decide
      have hne2 : ¬ ("timeout".toList = "survived".toList) := by decide
      simp [summaryStep, h3, hne1, hne2]; omega
    · have hne1 : ¬ ("compile_error".toList = "killed".toList) := by decide
      have hne2 : ¬ ("compile_error".toList = "survived".toList) := by decide
      have hne3 : ¬ ("compile_error".toList = "timeout".toList) := by decide
      simp [summaryStep, h4, hne1, hne2, hne3]; omega

/-- C8: for rows whose `test_outcome` is one of the four outcome strings,
the summary computed by `get_mutation_summary` satisfies
`killed + survived + timeout + compile_error = total`. -/
theorem mutation_summary_totality (rows : List MutationResultRow)
    (h : ∀ r ∈ rows,
      r.test_outcome = "killed".toList ∨ r.test_outcome = "survived".toList ∨
        r.test_outcome = "timeout".toList ∨ r.test_outcome = "compile_error".toList) :
    (get_mutation_summary rows).killed + (get_mutation_summary rows).survived +
        (get_mutation_summary rows).timeout +
        (get_mutation_summary rows).compile_error =
      (get_mutation_summary rows).total :=
  summary_foldl_inv rows MutationSummary.default rfl h

/-- Witness for C8 on a two-row store. -/
theorem mutation_summary_totality_witness :
    (get_mutation_summary [⟨"killed".toList⟩, ⟨"timeout".toList⟩]).killed +
        (get_mutation_summary [⟨"killed".toList⟩, ⟨"timeout".toList⟩]).survived +
        (get_mutation_summary [⟨"killed".toList⟩, ⟨"timeout".toList⟩]).timeout +
        (get_mutation_summary [⟨"killed".toList⟩, ⟨"timeout".toList⟩]).compile_error =
      (get_mutation_summary [⟨"killed".toList⟩, ⟨"timeout".toList⟩]).total :=
  mutation_summary_totality [⟨"killed".toList⟩, ⟨"timeout".toList⟩] (by decide)

/-! ### Truncation totality (C10) -/

/-- C10: contrary to the claimed totality, the head-keeping truncation
helpers panic when the byte budget falls inside a multi-byte character:
at input `"é"` (two bytes) with budget 1, the Rust slices
`&output[..1]` and `&error[..1]` are not at a character boundary. -/
theorem truncate_head_panics :
    truncate_output ['é'] 1 = none ∧ truncate_error ['é'] 1 = none := by decide

/-! ### File restoration (C1) -/

/-- Build/test/fix oracles exhibiting the restoration failure: the build
succeeds, the test command exits non-zero with the two-byte output `"é"`. -/
def panicEnv : ExecEnv :=
  { build := fun _ => none
  , testEnv := { cmd := .completed (some 1) ['é'], analysis := none }
  , fix := fun _ => .fixErrored }

/-- The mutation used in the C1 counter-run: replace `>` by `>=` on
line 1. -/
def panicMutation : GeneratedMutation :=
  ⟨"f.rs".toList, [⟨1, ['>'], ['>', '=']⟩], [], []⟩

/-- C1: the per-mutation procedure does not always restore the file.  With
`max_test_output_bytes = 1` and failing-test output `"é"`, the byte slice
inside `run_tests_with_command` panics before the revert, and the
procedure unwinds leaving the mutated content on disk. -/
theorem execute_mutation_test_panic_leaves_mutated_file :
    execute_mutation_test panicEnv 1 panicMutation "a > b".toList =
      (none, "a >= b".toList) ∧ "a >= b".toList ≠ "a > b".toList := by
  constructor
  · rfl
  · decide

/-- The after-loop result construction leaves the file argument
untouched. -/
theorem finalCompileError_snd (maxb : Nat) (m : GeneratedMutation)
    (lastErr : Option (List Char)) (fs : List Char) :
    (finalCompileError maxb m lastErr fs).2 = fs := by
  unfold finalCompileError
  cases lastErr with
  | none => rfl
  | some e => cases he : truncate_output e maxb <;> simp [he]

/-- The post-build classification leaves the file argument untouched. -/
theorem classifyAfterBuild_snd (maxb : Nat) (m : GeneratedMutation)
    (tres : TestResultR) (fs : List Char) :
    (classifyAfterBuild maxb m tres fs).2 = fs := by
  unfold classifyAfterBuild
  cases tres with
  | passed => rfl
  | timeout => rfl
  | failed tn out => cases ho : truncate_output out maxb <;> simp [ho]
  | compileError out => cases ho : truncate_output out maxb <;> simp [ho]

/-- Complement to C1: on every run in which no panic occurs (the result is
`some`), the file content on return equals the content on entry — every
non-unwinding exit path of the retry loop restores the file. -/
theorem execute_mutation_test_reverts_without_panic (env : ExecEnv)
    (maxb : Nat) (m : GeneratedMutation) (fs0 fs1 : List Char)
    (r : MutationTestResultM)
    (h : execute_mutation_test env maxb m fs0 = (some r, fs1)) : fs1 = fs0 := by
  have key : ∀ fuel attempt mm lastErr,
      ((execLoop env maxb fs0 fuel attempt mm lastErr fs0).1).isSome →
      (execLoop env maxb fs0 fuel attempt mm lastErr fs0).2 = fs0 := by
    intro fuel
    induction fuel with
    | zero =>
      intro attempt mm lastErr _
      unfold execLoop
      exact finalCompileError_snd maxb mm lastErr fs0
    | succ fuel ih =>
      intro attempt mm lastErr hs
      unfold execLoop at hs ⊢
      cases happ : apply_replacements fs0 mm.replacements with
      | none => simp only [happ]
      | some mutated =>
        simp only [happ] at hs ⊢
        cases hb : env.build attempt with
        | none =>
          simp only [hb] at hs ⊢
          cases ht : run_tests_with_command env.testEnv maxb with
          | none => simp [ht] at hs
          | some tres =>
            simp only [ht] at hs ⊢
            exact classifyAfterBuild_snd maxb mm tres fs0
        | some ce =>
          simp only [hb] at hs ⊢
          by_cases hf : 0 < fuel
          · rw [if_pos hf] at hs ⊢
            cases htail : truncate_output_tail ce 500 with
            | none => simp [htail] at hs
            | some preview =>
              simp only [htail] at hs ⊢
              cases hfix : env.fix attempt with
              | fixPanicked => simp [hfix] at hs
              | fixErrored =>
                simp only [hfix] at hs ⊢
                exact finalCompileError_snd maxb mm (some ce) fs0
              | fixOk fixed =>
                simp only [hfix] at hs ⊢
                exact ih (attempt + 1) fixed (some ce) hs
          · rw [if_neg hf] at hs ⊢
            exact finalCompileError_snd maxb mm (some ce) fs0
  have h1 : ((execLoop env maxb fs0 MAX_COMPILE_RETRIES 1 m none fs0).1).isSome := by
    unfold execute_mutation_test at h
    rw [h]
    rfl
  have h2 := key MAX_COMPILE_RETRIES 1 m none h1
  unfold execute_mutation_test at h
  rw [h] at h2
  exact h2

/-! ### Truncation directions (C3) -/

/-- `utf8Len` distributes over append. -/
theorem utf8Len_append (l l' : List Char) : utf8Len (l ++ l') = utf8Len l + utf8Len l' := by
  unfold utf8Len
  rw [List.map_append, List.sum_append]

/-- A successful byte-take returns a prefix occupying exactly the
requested number of bytes. -/
theorem takeBytes_spec : ∀ (s : List Char) (n : Nat) (p : List Char),
    takeBytes s n = some p → p <+: s ∧ utf8Len p = n := by
  intro s
  induction s with
  | nil =>
    intro n p h
    cases n with
    | zero =>
      unfold takeBytes at h
      cases h
      exact ⟨List.prefix_refl _, rfl⟩
    | succ n => exact absurd h (by unfold takeBytes; simp)
  | cons c cs ih =>
    intro n p h
    cases n with
    | zero =>
      unfold takeBytes at h
      cases h
      exact ⟨⟨c :: cs, rfl⟩, rfl⟩
    | succ n =>
      unfold takeBytes at h
      by_cases hc : c.utf8Size ≤ n + 1
      · rw [if_pos hc] at h
        cases ht : takeBytes cs (n + 1 - c.utf8Size) with
        | none => rw [ht] at h; cases h
        | some t =>
          rw [ht] at h
          cases h
          obtain ⟨hpre, hlen⟩ := ih (n + 1 - c.utf8Size) t ht
          obtain ⟨rest, hrest⟩ := hpre
          refine ⟨⟨rest, by simp [hrest]⟩, ?_⟩
          have hu : utf8Len (c :: t) = c.utf8Size + utf8Len t := by
            unfold utf8Len
            simp
          omega
      · rw [if_neg hc] at h
        cases h

/-- A successful byte-drop returns a suffix, and the dropped byte count
plus the suffix byte count is the whole byte count. -/
theorem dropBytes_spec : ∀ (s : List Char) (n : Nat) (t : List Char),
    dropBytes s n = some t → t <:+ s ∧ n + utf8Len t = utf8Len s := by
  intro s
  induction s with
  | nil =>
    intro n t h
    cases n with
    | zero =>
      unfold dropBytes at h
      cases h
      exact ⟨List.suffix_refl _, Nat.zero_add _⟩
    | succ n => exact absurd h (by unfold dropBytes; simp)
  | cons c cs ih =>
    intro n t h
    cases n with
    | zero =>
      unfold dropBytes at h
      cases h
      exact ⟨List.suffix_refl _, Nat.zero_add _⟩
    | succ n =>
      unfold dropBytes at h
      by_cases hc : c.utf8Size ≤ n + 1
      · rw [if_pos hc] at h
        obtain ⟨hsuf, hlen⟩ := ih (n + 1 - c.utf8Size) t h
        refine ⟨hsuf.trans (List.suffix_cons c cs), ?_⟩
        have : utf8Len (c :: cs) = c.utf8Size + utf8Len cs := by
          unfold utf8Len
          simp
        omega
      · rw [if_neg hc] at h
        cases h

/-- C3 (amended) theorem: persisted test output is truncated from the head
(`truncate_output` keeps a prefix of `max_bytes` bytes); the error excerpt
embedded in the LLM fix prompt is also truncated from the head
(`truncate_error` keeps the first 2000 bytes); only the debug-log preview
helper `truncate_output_tail` keeps a suffix of at most `max_bytes`
bytes. -/
theorem truncation_directions (s : List Char) (maxb : Nat) :
    (∀ r, truncate_output s maxb = some r →
      r = s ∨ ∃ p, p <+: s ∧ utf8Len p = maxb ∧ r = p ++ headMarker) ∧
    (∀ r, fixPromptErrorExcerpt s = some r → r = s ∨ (r <+: s ∧ utf8Len r = 2000)) ∧
    (∀ r, truncate_output_tail s maxb = some r →
      r = s ∨ ∃ t, t <:+ s ∧ utf8Len t ≤ maxb ∧ r = tailMarker ++ t) := by
  refine ⟨fun r hr => ?_, fun r hr => ?_, fun r hr => ?_⟩
  · unfold truncate_output at hr
    by_cases hle : utf8Len s ≤ maxb
    · rw [if_pos hle] at hr
      cases hr
      exact Or.inl rfl
    · rw [if_neg hle] at hr
      cases ht : takeBytes s maxb with
      | none => rw [ht] at hr; cases hr
      | some p =>
        rw [ht] at hr
        cases hr
        obtain ⟨hpre, hlen⟩ := takeBytes_spec s maxb p ht
        exact Or.inr ⟨p, hpre, hlen, rfl⟩
  · unfold fixPromptErrorExcerpt truncate_error at hr
    by_cases hle : utf8Len s ≤ 2000
    · rw [if_pos hle] at hr
      cases hr
      exact Or.inl rfl
    · rw [if_neg hle] at hr
      obtain ⟨hpre, hlen⟩ := takeBytes_spec s 2000 r hr
      exact Or.inr ⟨hpre, hlen⟩
  · unfold truncate_output_tail at hr
    by_cases hle : utf8Len s ≤ maxb
    · rw [if_pos hle] at hr
      cases hr
      exact Or.inl rfl
    · rw [if_neg hle] at hr
      simp only at hr
      set start := utf8Len s - maxb with hstart
      set start1 := ((charIndices s 0).find? (fun i => decide (start ≤ i))).getD start
        with hstart1
      have hge : start ≤ start1 := by
        rw [hstart1]
        cases hfind : (charIndices s 0).find? (fun i => decide (start ≤ i)) with
        | none => simp
        | some j =>
          have := List.find?_some hfind
          simp at this
          simpa using this
      cases hd : dropBytes s start1 with
      | none => rw [hd] at hr; cases hr
      | some t =>
        rw [hd] at hr
        cases hr
        obtain ⟨hsuf, hlen⟩ := dropBytes_spec s start1 t hd
        refine Or.inr ⟨t, hsuf, ?_, rfl⟩
        omega

/-- Witness for the amended C3 at concrete strings: head truncation of
`"ab"` to one byte, a short fix-prompt excerpt, and tail truncation of
`"abc"` to one byte. -/
theorem truncation_directions_witness :
    (('a' :: headMarker) = "ab".toList ∨
      ∃ p, p <+: "ab".toList ∧ utf8Len p = 1 ∧ 'a' :: headMarker = p ++ headMarker) ∧
    ("err".toList = "err".toList ∨
      ("err".toList <+: "err".toList ∧ utf8Len "err".toList = 2000)) ∧
    ((tailMarker ++ ['c']) = "abc".toList ∨
      ∃ t, t <:+ "abc".toList ∧ utf8Len t ≤ 1 ∧ tailMarker ++ ['c'] = tailMarker ++ t) :=
  ⟨(truncation_directions "ab".toList 1).1 ('a' :: headMarker) rfl,
   (truncation_directions "err".toList 1).2.1 "err".toList rfl,
   (truncation_directions "abc".toList 1).2.2 (tailMarker ++ ['c']) rfl⟩

/-- The 2001-byte error used to refute the claimed tail-keeping of the
fix-prompt excerpt: 2000 copies of `a` followed by the diagnostic final
byte `Z`. -/
def longError : List Char := List.replicate 2000 'a' ++ ['Z']

/-- `utf8Len` of a replicated ASCII `a`. -/
theorem utf8Len_replicate_a (n : Nat) : utf8Len (List.replicate n 'a') = n := by
  unfold utf8Len
  rw [List.map_replicate, List.sum_replicate]
  have h1 : Char.utf8Size 'a' = 1 := rfl
  rw [h1, smul_eq_mul, Nat.mul_one]

/-- Taking exactly the byte length of an all-ASCII block out of that block
followed by anything returns the block. -/
theorem takeBytes_ascii_append (rest : List Char) :
    ∀ l : List Char, (∀ c ∈ l, Char.utf8Size c = 1) →
      takeBytes (l ++ rest) l.length = some l := by
  intro l
  induction l with
  | nil =>
    intro _
    show takeBytes rest 0 = some []
    cases rest <;> rfl
  | cons c cs ih =>
    intro h
    have hc : Char.utf8Size c = 1 := h c (List.mem_cons_self _ _)
    show takeBytes (c :: (cs ++ rest)) (cs.length + 1) = some (c :: cs)
    unfold takeBytes
    rw [hc]
    rw [if_pos (by omega)]
    have h2 : cs.length + 1 - 1 = cs.length := by omega
    rw [h2, ih (fun x hx => h x (List.mem_cons_of_mem _ hx))]

/-- C3 counterexample: on a 2001-byte compile error, the excerpt embedded
in the LLM fix prompt is the FIRST 2000 bytes; the final byte `Z` of the
error output is dropped, contradicting the claimed tail-keeping. -/
theorem fix_prompt_excerpt_keeps_head :
    fixPromptErrorExcerpt longError = some (List.replicate 2000 'a') ∧
    longError.getLast? = some 'Z' ∧
    'Z' ∉ List.replicate 2000 'a' := by
  refine ⟨?_, ?_, ?_⟩
  · unfold fixPromptErrorExcerpt truncate_error longError
    have hlen : utf8Len (List.replicate 2000 'a' ++ ['Z']) = 2001 := by
      rw [utf8Len_append, utf8Len_replicate_a]
      rfl
    rw [hlen]
    rw [if_neg (by omega)]
    have := takeBytes_ascii_append ['Z'] (List.replicate 2000 'a')
      (fun c hc => by rw [List.eq_of_mem_replicate hc]; rfl)
    rwa [List.length_replicate] at this
  · unfold longError
    exact List.getLast?_concat _
  · intro hmem
    have := List.eq_of_mem_replicate hmem
    cases this

/-! ### Replacement ordering (C5) -/

/-- Content for the C5 counterexample: a single line `ab ab`. -/
def cexContent : List Char := "ab ab".toList

/-- First replacement: `ab` to `X` on line 1. -/
def cexR1 : Replacement := ⟨1, "ab".toList, "X".toList⟩

/-- Second replacement: `a` to `Y` on line 1. -/
def cexR2 : Replacement := ⟨1, "a".toList, "Y".toList⟩

/-- C5 counterexample: two replacements on the same line.  Both
`[cexR1, cexR2]` and its reverse are sorted both ascending and descending
by line number, both runs succeed, and the outputs differ (`X Yb` versus
`Yb X`): the stable descending sort preserves the producer order of
equal-line replacements. -/
theorem apply_replacements_order_counterexample :
    List.Pairwise (fun a b : Replacement => a.line_number ≤ b.line_number)
      [cexR1, cexR2] ∧
    List.Pairwise (fun a b : Replacement => b.line_number ≤ a.line_number)
      [cexR1, cexR2] ∧
    [cexR2, cexR1] = [cexR1, cexR2].reverse ∧
    apply_replacements cexContent [cexR1, cexR2] = some "X Yb".toList ∧
    apply_replacements cexContent [cexR2, cexR1] = some "Yb X".toList ∧
    apply_replacements cexContent [cexR1, cexR2] ≠
      apply_replacements cexContent [cexR2, cexR1] := by
  refine ⟨?_, ?_, rfl, ?_, ?_, ?_⟩ <;> decide

/-- C5 (amended) theorem: when the replacements of a mutation have
pairwise-distinct line numbers, applying them after listing in one order
or the reverse order produces the same result. -/
theorem apply_replacements_reverse_invariant (content : List Char)
    (rs : List Replacement)
    (h : rs.Pairwise (fun a b => a.line_number ≠ b.line_number)) :
    apply_replacements content rs = apply_replacements content rs.reverse := by
  haveI itot : IsTotal Replacement (fun a b => b.line_number ≤ a.line_number) :=
    ⟨fun a b => Nat.le_total b.line_number a.line_number⟩
  haveI itrans : IsTrans Replacement (fun a b => b.line_number ≤ a.line_number) :=
    ⟨fun _ _ _ hab hbc => le_trans hbc hab⟩
  haveI ianti : IsAntisymm Replacement (fun a b => b.line_number < a.line_number) :=
    ⟨fun _ _ hab hba => absurd hba (Nat.lt_asymm hab)⟩
  have hsymm : Symmetric (fun a b : Replacement => a.line_number ≠ b.line_number) :=
    fun _ _ hab => hab.symm
  have hsort : sortByLineDesc rs = sortByLineDesc rs.reverse := by
    have p1 : List.Perm (sortByLineDesc rs) rs := List.perm_insertionSort _ rs
    have p2 : List.Perm (sortByLineDesc rs.reverse) rs.reverse :=
      List.perm_insertionSort _ rs.reverse
    have hperm : List.Perm (sortByLineDesc rs) (sortByLineDesc rs.reverse) :=
      (p1.trans (List.reverse_perm rs).symm).trans p2.symm
    have s1 : List.Sorted (fun a b => b.line_number ≤ a.line_number) (sortByLineDesc rs) :=
      List.sorted_insertionSort _ rs
    have s2 : List.Sorted (fun a b => b.line_number ≤ a.line_number)
        (sortByLineDesc rs.reverse) :=
      List.sorted_insertionSort _ rs.reverse
    have hne1 : (sortByLineDesc rs).Pairwise
        (fun a b => a.line_number ≠ b.line_number) :=
      (p1.pairwise_iff fun hab => hsymm hab).mpr h
    have hne2 : (sortByLineDesc rs.reverse).Pairwise
        (fun a b => a.line_number ≠ b.line_number) :=
      ((p2.trans (List.reverse_perm rs)).pairwise_iff fun hab => hsymm hab).mpr h
    have strict1 : List.Sorted (fun a b : Replacement => b.line_number < a.line_number)
        (sortByLineDesc rs) :=
      (s1.and hne1).imp fun hab => Nat.lt_of_le_of_ne hab.1 (Ne.symm hab.2)
    have strict2 : List.Sorted (fun a b : Replacement => b.line_number < a.line_number)
        (sortByLineDesc rs.reverse) :=
      (s2.and hne2).imp fun hab => Nat.lt_of_le_of_ne hab.1 (Ne.symm hab.2)
    exact List.eq_of_perm_of_sorted hperm strict1 strict2
  unfold apply_replacements
  rw [hsort]
  cases rs with
  | nil => rfl
  | cons a as =>
    have h1 : (a :: as).isEmpty = false := rfl
    have h2 : ((a :: as).reverse).isEmpty = false := by
      cases hrev : (a :: as).reverse with
      | nil => exact absurd (congrArg List.length hrev) (by simp)
      | cons b bs => rfl
    rw [h1, h2]

/-- Witness for the amended C5 on two replacements with distinct lines. -/
theorem apply_replacements_reverse_invariant_witness :
    apply_replacements "a\nb".toList
        [⟨1, "a".toList, "x".toList⟩, ⟨2, "b".toList, "y".toList⟩] =
      apply_replacements "a\nb".toList
        [(⟨1, "a".toList, "x".toList⟩ : Replacement),
          ⟨2, "b".toList, "y".toList⟩].reverse :=
  apply_replacements_reverse_invariant "a\nb".toList
    [⟨1, "a".toList, "x".toList⟩, ⟨2, "b".toList, "y".toList⟩] (by decide)

/-! ### Window search lemmas (for C4 and C6) -/

/-- A successful window scan returns a line number in the scanned range
whose line contains the needle. -/
theorem findInWindow_some (lines : List (List Char)) (find : List Char) :
    ∀ (count s t : Nat), findInWindow lines find s count = some t →
      s ≤ t ∧ t < s + count ∧ find <:+: lines.getD (t - 1) [] := by
  intro count
  induction count with
  | zero =>
    intro s t h
    exact absurd h (by unfold findInWindow; simp)
  | succ n ih =>
    intro s t h
    unfold findInWindow at h
    by_cases hc : find <:+: lines.getD (s - 1) []
    · rw [if_pos hc] at h
      cases h
      exact ⟨le_refl _, by omega, hc⟩
    · rw [if_neg hc] at h
      obtain ⟨h1, h2, h3⟩ := ih (s + 1) t h
      exact ⟨by omega, by omega, h3⟩

/-- A failed window scan means no line in the scanned range contains the
needle. -/
theorem findInWindow_none (lines : List (List Char)) (find : List Char) :
    ∀ (count s : Nat), findInWindow lines find s count = none →
      ∀ u, s ≤ u → u < s + count → ¬ find <:+: lines.getD (u - 1) [] := by
  intro count
  induction count with
  | zero =>
    intro s _ u h1 h2
    omega
  | succ n ih =>
    intro s h u h1 h2
    unfold findInWindow at h
    by_cases hc : find <:+: lines.getD (s - 1) []
    · rw [if_pos hc] at h
      cases h
    · rw [if_neg hc] at h
      by_cases hu : u = s
      · rw [hu]
        exact hc
      · exact ih (s + 1) h u (by omega) (by omega)

/-- A successful whole-file scan started at one-based index `n` returns an
index in range whose line contains the needle. -/
theorem positionContainingFrom_some (find : List Char) :
    ∀ (ls : List (List Char)) (n t : Nat), positionContainingFrom find ls n = some t →
      n ≤ t ∧ t < n + ls.length ∧ find <:+: ls.getD (t - n) [] := by
  intro ls
  induction ls with
  | nil =>
    intro n t h
    exact absurd h (by unfold positionContainingFrom; simp)
  | cons l ls ih =>
    intro n t h
    unfold positionContainingFrom at h
    by_cases hc : find <:+: l
    · rw [if_pos hc] at h
      cases h
      refine ⟨le_refl _, by simp, ?_⟩
      simp [hc]
    · rw [if_neg hc] at h
      obtain ⟨h1, h2, h3⟩ := ih (n + 1) t h
      refine ⟨by omega, by simp; omega, ?_⟩
      have he : t - n = (t - (n + 1)) + 1 := by omega
      rw [he]
      simpa using h3

/-- A failed whole-file scan means no line contains the needle. -/
theorem positionContainingFrom_none (find : List Char) :
    ∀ (ls : List (List Char)) (n : Nat), positionContainingFrom find ls n = none →
      ∀ l ∈ ls, ¬ find <:+: l := by
  intro ls
  induction ls with
  | nil =>
    intro n _ l hl
    cases hl
  | cons a as ih =>
    intro n h l hl
    unfold positionContainingFrom at h
    by_cases hc : find <:+: a
    · rw [if_pos hc] at h
      cases h
    · rw [if_neg hc] at h
      rcases List.mem_cons.mp hl with rfl | hl
      · exact hc
      · exact ih (n + 1) h l hl

/-- Past the target, the rebuild loop copies lines unchanged. -/
theorem buildNewLines_skip (find repl : List Char) :
    ∀ (ls : List (List Char)) (i target : Nat), target ≤ i →
      buildNewLines find repl target ls i = ls := by
  intro ls
  induction ls with
  | nil =>
    intro i target _
    rfl
  | cons l ls ih =>
    intro i target h
    unfold buildNewLines
    rw [if_neg (by omega)]
    rw [ih (i + 1) target (by omega)]

/-- The rebuild loop with one-based target `i + k + 1`, started at
zero-based index `i`, performs exactly a point update at offset `k`. -/
theorem buildNewLines_set (find repl : List Char) :
    ∀ (ls : List (List Char)) (i k : Nat),
      buildNewLines find repl (i + k + 1) ls i =
        ls.set k (replaceFirst find repl (ls.getD k [])) := by
  intro ls
  induction ls with
  | nil =>
    intro i k
    rfl
  | cons l ls ih =>
    intro i k
    cases k with
    | zero =>
      unfold buildNewLines
      rw [if_pos (by omega)]
      rw [buildNewLines_skip find repl ls (i + 1) (i + 0 + 1) (by omega)]
      rfl
    | succ k =>
      unfold buildNewLines
      rw [if_neg (by omega)]
      have he : i + (k + 1) + 1 = (i + 1) + k + 1 := by omega
      rw [he, ih (i + 1) k]
      rfl

/-! ### Single replacement (C6) -/

/-- The ±3-line search window of the replacement engine: the line range
actually scanned around the suggested line number. -/
def inWindow (line_number line_count t : Nat) : Prop :=
  Nat.max (line_number - LINE_TOLERANCE) 1 ≤ t ∧
    t ≤ Nat.min (line_number + LINE_TOLERANCE) line_count

/-- C6: `apply_single_replacement` fails when `find` occurs on no line;
when it succeeds, there is a target line, within the ±3 window around
`line_number` unless no window line contains `find` (the whole-file
fallback), whose first occurrence of `find` is replaced once, every other
line being kept, and the lines are rejoined with the detected line
separator. -/
theorem apply_single_replacement_spec (content : List Char) (r : Replacement) :
    ((∀ l ∈ rustLines content, ¬ r.find <:+: l) →
      apply_single_replacement content r = none) ∧
    (∀ out, apply_single_replacement content r = some out →
      ∃ t, 1 ≤ t ∧ t ≤ (rustLines content).length ∧
        r.find <:+: (rustLines content).getD (t - 1) [] ∧
        (inWindow r.line_number (rustLines content).length t ∨
          ∀ u, inWindow r.line_number (rustLines content).length u →
            ¬ r.find <:+: (rustLines content).getD (u - 1) []) ∧
        out = List.intercalate (lineSep content)
          ((rustLines content).set (t - 1)
            (replaceFirst r.find r.replace ((rustLines content).getD (t - 1) [])))) := by
  have hs1 : 1 ≤ Nat.max (r.line_number - LINE_TOLERANCE) 1 := Nat.le_max_right _ _
  have he1 : Nat.min (r.line_number + LINE_TOLERANCE) (rustLines content).length ≤
      (rustLines content).length := Nat.min_le_right _ _
  constructor
  · intro hnone
    unfold apply_single_replacement
    by_cases hrange : r.line_number = 0 ∨
        (rustLines content).length + LINE_TOLERANCE < r.line_number
    · rw [if_pos hrange]
    · rw [if_neg hrange]
      simp only
      cases hw : findInWindow (rustLines content) r.find
          (Nat.max (r.line_number - LINE_TOLERANCE) 1)
          (Nat.min (r.line_number + LINE_TOLERANCE) (rustLines content).length + 1 -
            Nat.max (r.line_number - LINE_TOLERANCE) 1) with
      | some t =>
        exfalso
        obtain ⟨h1, h2, h3⟩ := findInWindow_some _ _ _ _ _ hw
        have ht : t - 1 < (rustLines content).length := by omega
        rw [List.getD_eq_getElem _ _ ht] at h3
        exact hnone _ (List.getElem_mem ht) h3
      | none =>
        cases hp : positionContaining r.find (rustLines content) with
        | some t =>
          exfalso
          obtain ⟨h1, h2, h3⟩ := positionContainingFrom_some _ _ _ _ hp
          have ht : t - 1 < (rustLines content).length := by omega
          rw [List.getD_eq_getElem _ _ ht] at h3
          exact hnone _ (List.getElem_mem ht) h3
        | none =>
          simp [hw, hp]
  · intro out hout
    unfold apply_single_replacement at hout
    by_cases hrange : r.line_number = 0 ∨
        (rustLines content).length + LINE_TOLERANCE < r.line_number
    · rw [if_pos hrange] at hout
      cases hout
    · rw [if_neg hrange] at hout
      simp only at hout
      cases hw : findInWindow (rustLines content) r.find
          (Nat.max (r.line_number - LINE_TOLERANCE) 1)
          (Nat.min (r.line_number + LINE_TOLERANCE) (rustLines content).length + 1 -
            Nat.max (r.line_number - LINE_TOLERANCE) 1) with
      | some t =>
        rw [hw] at hout
        simp only at hout
        obtain ⟨h1, h2, h3⟩ := findInWindow_some _ _ _ _ _ hw
        have h4 : t ≤ Nat.min (r.line_number + LINE_TOLERANCE) (rustLines content).length := by
          omega
        cases hout
        refine ⟨t, by omega, by omega, h3, Or.inl ⟨h1, h4⟩, ?_⟩
        have hb := buildNewLines_set r.find r.replace (rustLines content) 0 (t - 1)
        have ht : 0 + (t - 1) + 1 = t := by omega
        rw [ht] at hb
        rw [hb]
      | none =>
        rw [hw] at hout
        simp only at hout
        cases hp : positionContaining r.find (rustLines content) with
        | some t =>
          rw [hp] at hout
          simp only at hout
          obtain ⟨h1, h2, h3⟩ := positionContainingFrom_some _ _ _ _ hp
          have h3' : r.find <:+: (rustLines content).getD (t - 1) [] := h3
          cases hout
          refine ⟨t, h1, by omega, h3', Or.inr ?_, ?_⟩
          · intro u hu
            obtain ⟨hu1, hu2⟩ := hu
            refine findInWindow_none _ _ _ _ hw u hu1 ?_
            omega
          · have hb := buildNewLines_set r.find r.replace (rustLines content) 0 (t - 1)
            have ht : 0 + (t - 1) + 1 = t := by omega
            rw [ht] at hb
            rw [hb]
        | none =>
          rw [hp] at hout
          cases hout

/-- Witness for C6: `find` occurring nowhere makes the replacement
fail. -/
theorem apply_single_replacement_spec_witness :
    apply_single_replacement "ab".toList ⟨1, "zz".toList, "y".toList⟩ = none :=
  (apply_single_replacement_spec "ab".toList ⟨1, "zz".toList, "y".toList⟩).1 (by decide)

/-! ### Mutation generation postconditions (C4) -/

/-- Members of a successful option-valued map come from members of the
input. -/
theorem mapMOpt_mem (f : α → Option β) :
    ∀ (l : List α) (l' : List β), mapMOpt f l = some l' →
      ∀ b ∈ l', ∃ a ∈ l, f a = some b := by
  intro l
  induction l with
  | nil =>
    intro l' h b hb
    unfold mapMOpt at h
    cases h
    cases hb
  | cons a as ih =>
    intro l' h b hb
    unfold mapMOpt at h
    cases hfa : f a with
    | none => rw [hfa] at h; cases h
    | some b0 =>
      rw [hfa] at h
      cases hrest : mapMOpt f as with
      | none => rw [hrest] at h; cases h
      | some bs =>
        rw [hrest] at h
        cases h
        rcases List.mem_cons.mp hb with rfl | hb
        · exact ⟨a, List.mem_cons_self _ _, hfa⟩
        · obtain ⟨x, hx, hfx⟩ := ih bs hrest b hb
          exact ⟨x, List.mem_cons_of_mem _ hx, hfx⟩

/-- A successful option-valued map preserves length. -/
theorem mapMOpt_length (f : α → Option β) :
    ∀ (l : List α) (l' : List β), mapMOpt f l = some l' → l'.length = l.length := by
  intro l
  induction l with
  | nil =>
    intro l' h
    unfold mapMOpt at h
    cases h
    rfl
  | cons a as ih =>
    intro l' h
    unfold mapMOpt at h
    cases hfa : f a with
    | none => rw [hfa] at h; cases h
    | some b0 =>
      rw [hfa] at h
      cases hrest : mapMOpt f as with
      | none => rw [hrest] at h; cases h
      | some bs =>
        rw [hrest] at h
        cases h
        simp [ih bs hrest]

/-- Every replacement surviving validation has a non-empty `find`
different from `replace`, and its recorded line number is an actual
one-based line of the file whose text contains `find`. -/
theorem validateReplacement_some (lines : List (List Char)) (raw : RawReplacement)
    (r : Replacement) (h : validateReplacement lines raw = some r) :
    r.find ≠ [] ∧ r.find ≠ r.replace ∧ 1 ≤ r.line_number ∧
      r.line_number ≤ lines.length ∧
      r.find <:+: lines.getD (r.line_number - 1) [] := by
  unfold validateReplacement at h
  by_cases h1 : raw.line_number = 0 ∨ lines.length + LINE_TOLERANCE < raw.line_number
  · rw [if_pos h1] at h
    cases h
  · rw [if_neg h1] at h
    by_cases h2 : raw.find = []
    · rw [if_pos h2] at h
      cases h
    · rw [if_neg h2] at h
      by_cases h3 : raw.find = raw.replace
      · rw [if_pos h3] at h
        cases h
      · rw [if_neg h3] at h
        simp only at h
        cases hw : findInWindow lines raw.find
            (Nat.max (raw.line_number - LINE_TOLERANCE) 1)
            (Nat.min (raw.line_number + LINE_TOLERANCE) lines.length + 1 -
              Nat.max (raw.line_number - LINE_TOLERANCE) 1) with
        | some t =>
          rw [hw] at h
          simp only at h
          cases h
          obtain ⟨g1, g2, g3⟩ := findInWindow_some _ _ _ _ _ hw
          have hs1 : 1 ≤ Nat.max (raw.line_number - LINE_TOLERANCE) 1 :=
            Nat.le_max_right _ _
          have he1 : Nat.min (raw.line_number + LINE_TOLERANCE) lines.length ≤
              lines.length := Nat.min_le_right _ _
          refine ⟨h2, h3, ?_, ?_, g3⟩
          · show 1 ≤ t
            omega
          · show t ≤ lines.length
            omega
        | none =>
          rw [hw] at h
          simp only at h
          cases hp : positionContaining raw.find lines with
          | some t =>
            rw [hp] at h
            cases h
            obtain ⟨g1, g2, g3⟩ := positionContainingFrom_some _ _ _ _ hp
            refine ⟨h2, h3, g1, ?_, g3⟩
            show t ≤ lines.length
            omega
          | none =>
            rw [hp] at h
            cases h

/-- A mutation surviving validation has a non-empty replacement list, each
member of which survived `validateReplacement`. -/
theorem validateMutation_some (fp : List Char) (lines : List (List Char))
    (raw : RawMutation) (m : GeneratedMutation)
    (h : validateMutation fp lines raw = some m) :
    m.replacements ≠ [] ∧
      ∀ rr ∈ m.replacements, ∃ rawr ∈ raw.replacements,
        validateReplacement lines rawr = some rr := by
  unfold validateMutation at h
  by_cases h1 : raw.replacements.isEmpty
  · rw [if_pos h1] at h
    cases h
  · rw [if_neg h1] at h
    cases hmap : mapMOpt (validateReplacement lines) raw.replacements with
    | none => rw [hmap] at h; cases h
    | some reps =>
      rw [hmap] at h
      cases h
      constructor
      · intro hnil
        have hnil2 : reps = [] := hnil
        have hlen := mapMOpt_length _ _ _ hmap
        rw [hnil2] at hlen
        have hre : raw.replacements = [] := List.length_eq_zero.mp hlen.symm
        rw [hre] at h1
        exact h1 rfl
      · exact mapMOpt_mem _ _ _ hmap

/-- C4: every mutation returned by the generation pipeline has a non-empty
replacement list; every replacement has non-empty `find`, `find` different
from `replace`, a line number in `[1, line_count + 3]` at which `find`
actually occurs in the file; and at most `max_mutations` mutations are
returned. -/
theorem analyze_and_generate_mutations_spec (file_path code : List Char)
    (parsed : List RawMutation) (max_mutations : Nat) :
    (analyze_and_generate_mutations file_path code parsed max_mutations).length ≤
      max_mutations ∧
    ∀ m ∈ analyze_and_generate_mutations file_path code parsed max_mutations,
      m.replacements ≠ [] ∧
      ∀ rr ∈ m.replacements,
        rr.find ≠ [] ∧ rr.find ≠ rr.replace ∧
        1 ≤ rr.line_number ∧
        rr.line_number ≤ (rustLines code).length + LINE_TOLERANCE ∧
        rr.find <:+: (rustLines code).getD (rr.line_number - 1) [] := by
  constructor
  · unfold analyze_and_generate_mutations
    simp only
    rw [List.length_take]
    exact Nat.min_le_left _ _
  · intro m hm
    unfold analyze_and_generate_mutations at hm
    simp only at hm
    have hm2 := List.mem_of_mem_take hm
    obtain ⟨raw, _, hv⟩ := List.mem_filterMap.mp hm2
    obtain ⟨hne, hall⟩ := validateMutation_some _ _ _ _ hv
    refine ⟨hne, fun rr hrr => ?_⟩
    obtain ⟨rawr, _, hvr⟩ := hall rr hrr
    obtain ⟨f1, f2, f3, f4, f5⟩ := validateReplacement_some _ _ _ hvr
    exact ⟨f1, f2, f3, by omega, f5⟩

/-- Witness for C4 on one concrete raw mutation over the one-line file
`a > 0`. -/
theorem analyze_and_generate_mutations_spec_witness :
    GeneratedMutation.replacements
        ⟨"f.rs".toList, [⟨1, "a > 0".toList, "a >= 0".toList⟩], "r".toList,
          "d".toList⟩ ≠ [] :=
  ((analyze_and_generate_mutations_spec "f.rs".toList "a > 0".toList
      [⟨[⟨1, "a > 0".toList, "a >= 0".toList⟩], "r".toList, "d".toList⟩] 3).2
    ⟨"f.rs".toList, [⟨1, "a > 0".toList, "a >= 0".toList⟩], "r".toList, "d".toList⟩
    (by decide)).1

end Noctum
